import Mathlib

/-!
Shallow embedding of the git-monitor TUI core (src/diff.rs, src/app.rs,
src/watcher.rs, src/main.rs, src/git.rs) and proofs of the specified
properties of its view-state machine, diff parser and watcher filter.

Modelling conventions:
* Rust `String` / `&str` is modelled as `List Char`; byte offsets become
  character offsets (identical on ASCII input) and Unicode case folding is
  modelled by ASCII `Char.toLower`.
* Rust `u16` arithmetic is modelled on `Nat` with an explicit `% 65536`
  where a wrapping add or a truncating `as u16` cast occurs;
  `saturating_sub` is `Nat` subtraction.
* `HashSet<String>` is modelled as `Finset (List Char)`.
-/

/-- Character-list model of a Rust string. -/
abbrev Str := List Char

/-- ASCII model of Rust `str::to_lowercase`. -/
def toLowerStr (s : Str) : Str := s.map Char.toLower

-- ── diff.rs ──────────────────────────────────────────────────────

/-- A single line from a unified diff, classified by type (diff.rs `DiffLine`). -/
inductive DiffLine where
  /-- Synthetic header for a per-file collapsible section. -/
  | FileHeader (filename : Str) (added : Nat) (removed : Nat)
  /-- `diff --git ...`, `index ...`, `--- a/...`, `+++ b/...` -/
  | Header (s : Str)
  /-- hunk header line -/
  | Hunk (s : Str)
  /-- added line -/
  | Added (s : Str)
  /-- removed line -/
  | Removed (s : Str)
  /-- context (unchanged) line -/
  | Context (s : Str)
deriving DecidableEq, Repr

/-- Inner text content regardless of variant (diff.rs `DiffLine::text`). -/
def DiffLine.text : DiffLine → Str
  | .FileHeader filename _ _ => filename
  | .Header s => s
  | .Hunk s => s
  | .Added s => s
  | .Removed s => s
  | .Context s => s

/-- All diff content for a single file (diff.rs `FileDiff`). -/
structure FileDiff where
  filename : Str
  added : Nat
  removed : Nat
  lines : List DiffLine
deriving DecidableEq, Repr

/-- Boolean test that one character list starts with another. -/
def lstarts (s pre : Str) : Bool := pre.isPrefixOf s

/-- Extract the filename from a `diff --git a/... b/...` line; falls back to
the raw line if parsing fails (diff.rs `extract_filename`). The search for
the last occurrence of " b/" mirrors `str::rfind`. -/
def extract_filename (header : Str) : Str :=
  if lstarts header ("diff --git ".toList) then
    let rest := header.drop ("diff --git ".toList).length
    match rfindSub rest (" b/".toList) with
    | some pos => rest.drop (pos + 3)
    | none => header
  else header
where
  /-- Index of the last occurrence of `needle` in `hay`, if any. -/
  rfindSub (hay needle : Str) : Option Nat :=
    match hay with
    | [] => if needle.isPrefixOf [] then some 0 else none
    | _ :: t =>
      match rfindSub t needle with
      | some p => some (p + 1)
      | none => if needle.isPrefixOf hay then some 0 else none

/-- Classify one raw line and update the add/remove counters
(the loop body of diff.rs `build_file_diff`). -/
def classifyLine (line : Str) : DiffLine × Nat × Nat :=
  if lstarts line ("diff --git ".toList) || lstarts line ("index ".toList)
      || lstarts line ("--- ".toList) || lstarts line ("+++ ".toList)
      || lstarts line ("Binary files ".toList) then
    (DiffLine.Header line, 0, 0)
  else if lstarts line ("@@".toList) then
    (DiffLine.Hunk line, 0, 0)
  else if lstarts line ("+".toList) then
    (DiffLine.Added line, 1, 0)
  else if lstarts line ("-".toList) then
    (DiffLine.Removed line, 0, 1)
  else
    (DiffLine.Context line, 0, 0)

/-- Build a `FileDiff` from the raw lines of one file section
(diff.rs `build_file_diff`; the Rust code indexes `raw_lines[0]`, which is
total here via a default for the empty list that never occurs). -/
def build_file_diff (raw_lines : List Str) : FileDiff :=
  let filename := extract_filename (raw_lines.headD [])
  let step := fun (acc : Nat × Nat × List DiffLine) (line : Str) =>
    let (dl, a, r) := classifyLine line
    (acc.1 + a, acc.2.1 + r, acc.2.2 ++ [dl])
  let res := raw_lines.foldl step (0, 0, [])
  ⟨filename, res.1, res.2.1, res.2.2⟩

/-- Split raw diff lines on `diff --git` boundaries
(the loop of diff.rs `parse_files`, operating on the line list that
`str::lines` yields). -/
def splitSections (lines : List Str) (current : List Str) : List (List Str) :=
  match lines with
  | [] => if current = [] then [] else [current]
  | line :: rest =>
    if lstarts line ("diff --git ".toList) && current ≠ [] then
      current :: splitSections rest [line]
    else
      splitSections rest (current ++ [line])

/-- Parse raw `git diff` output (given as its list of lines) into per-file
sections (diff.rs `parse_files`). -/
def parse_files (raw : List Str) : List FileDiff :=
  (splitSections raw []).map build_file_diff

-- ── app.rs: state ────────────────────────────────────────────────

/-- Which diff view is currently displayed (app.rs `DiffView`). -/
inductive DiffView where
  | Unstaged
  | Staged
deriving DecidableEq, Repr

/-- Input mode, determining how keystrokes are routed (app.rs `InputMode`). -/
inductive InputMode where
  | Normal
  | Search
deriving DecidableEq, Repr

/-- Current search query, matches and navigation cursor (app.rs `SearchState`).
`matchesList` models the Rust field `matches`, whose name is reserved in
Lean; entries are (line index, byte start, byte end) triples. -/
structure SearchState where
  query : Str
  forward : Bool
  active : Bool
  matchesList : List (Nat × Nat × Nat)
  current_match : Nat
deriving DecidableEq, Repr

/-- Default `SearchState` (Rust `Default` derive: empty / false / zero). -/
def SearchState.default : SearchState :=
  ⟨[], false, false, [], 0⟩

/-- Central application state (app.rs `App`), restricted to the fields the
view-state machine mutates. `scroll`, `diff_line_count` and
`viewport_height` are Rust `u16` values modelled as `Nat`. -/
structure App where
  view : DiffView
  scroll : Nat
  diff_line_count : Nat
  viewport_height : Nat
  input_mode : InputMode
  search : SearchState
  collapsed : Finset Str
  visible_lines : List DiffLine
  file_header_positions : List Nat

/-- Initial state (app.rs `App::new`), with `viewport_height` left as a
parameter since the render pass sets it before any key is handled. -/
def App.new (vh : Nat) : App :=
  ⟨DiffView.Unstaged, 0, 0, vh, InputMode.Normal, SearchState.default,
   ∅, [], []⟩

-- ── app.rs: scrolling ────────────────────────────────────────────

/-- app.rs `App::max_scroll`: `diff_line_count.saturating_sub(viewport_height)`. -/
def App.max_scroll (s : App) : Nat :=
  s.diff_line_count - s.viewport_height

/-- Clear the search and return to normal mode (app.rs `App::clear_search`). -/
def App.clear_search (s : App) : App :=
  { s with input_mode := InputMode.Normal, search := SearchState.default }

/-- Toggle between staged and unstaged views, resetting scroll
(app.rs `App::toggle_view`). -/
def App.toggle_view (s : App) : App :=
  let v := match s.view with
    | DiffView.Unstaged => DiffView.Staged
    | DiffView.Staged => DiffView.Unstaged
  App.clear_search { s with view := v, scroll := 0 }

/-- Scroll down by `n` lines, clamped to content bounds
(app.rs `App::scroll_down`; the `u16` addition wraps at 65536). -/
def App.scroll_down (s : App) (n : Nat) : App :=
  { s with scroll := min ((s.scroll + n) % 65536) s.max_scroll }

/-- Scroll up by `n` lines, saturating at 0 (app.rs `App::scroll_up`). -/
def App.scroll_up (s : App) (n : Nat) : App :=
  { s with scroll := s.scroll - n }

/-- Jump to the top of the diff (app.rs `App::scroll_to_top`). -/
def App.scroll_to_top (s : App) : App :=
  { s with scroll := 0 }

/-- Jump to the bottom of the diff (app.rs `App::scroll_to_bottom`). -/
def App.scroll_to_bottom (s : App) : App :=
  { s with scroll := s.max_scroll }

/-- Scroll down by half a page (app.rs `App::scroll_half_down`). -/
def App.scroll_half_down (s : App) : App :=
  s.scroll_down (max (s.viewport_height / 2) 1)

/-- Scroll up by half a page (app.rs `App::scroll_half_up`). -/
def App.scroll_half_up (s : App) : App :=
  s.scroll_up (max (s.viewport_height / 2) 1)

-- ── app.rs: visible-line recomputation and folding ───────────────

/-- Loop body of app.rs `App::recompute_visible_lines`: walk the file diffs,
pushing a synthetic header (and its position) for each non-empty filename and
the body lines of every non-collapsed file, extending the accumulators. -/
def buildVisibleAux (collapsed : Finset Str) (acc : List DiffLine)
    (pos : List Nat) : List FileDiff → List DiffLine × List Nat
  | [] => (acc, pos)
  | fd :: rest =>
    let acc1 := if fd.filename ≠ [] then
        acc ++ [DiffLine.FileHeader fd.filename fd.added fd.removed]
      else acc
    let pos1 := if fd.filename ≠ [] then pos ++ [acc.length] else pos
    let acc2 := if fd.filename ∈ collapsed then acc1 else acc1 ++ fd.lines
    buildVisibleAux collapsed acc2 pos1 rest

/-- Rebuild `visible_lines` and `file_header_positions` from structured file
diffs, re-clamping the scroll offset
(app.rs `App::recompute_visible_lines`; `len() as u16` truncates). -/
def App.recompute_visible_lines (s : App) (files : List FileDiff) : App :=
  let r := buildVisibleAux s.collapsed [] [] files
  let dlc := r.1.length % 65536
  let m := dlc - s.viewport_height
  { s with visible_lines := r.1, file_header_positions := r.2,
           diff_line_count := dlc,
           scroll := if s.scroll > m then m else s.scroll }

/-- Determine which file the current scroll position is inside of
(app.rs `App::file_at_scroll`): the last header position at or before the
scroll line, then the header line stored there. Out-of-range indexing,
which Rust would panic on and which never occurs for states produced by
`recompute_visible_lines`, yields `none`. -/
def App.file_at_scroll (s : App) : Option Str :=
  match (s.file_header_positions.filter (fun p => p ≤ s.scroll)).getLast? with
  | none => none
  | some p =>
    match s.visible_lines.get? p with
    | some (DiffLine.FileHeader filename _ _) => some filename
    | _ => none

/-- Flip membership of `name` in the collapsed set and recompute
(the body of app.rs `App::toggle_file_fold` once the file is identified). -/
def App.toggle_fold_of (s : App) (name : Str) (files : List FileDiff) : App :=
  let c := if name ∈ s.collapsed then s.collapsed.erase name
           else insert name s.collapsed
  App.recompute_visible_lines { s with collapsed := c } files

/-- Toggle the collapsed state of the file under the current viewport
position (app.rs `App::toggle_file_fold`). -/
def App.toggle_file_fold (s : App) (files : List FileDiff) : App :=
  match s.file_at_scroll with
  | some name => s.toggle_fold_of name files
  | none => s

/-- Collapse all file sections (app.rs `App::fold_all`). -/
def App.fold_all (s : App) (files : List FileDiff) : App :=
  let c := (files.filter (fun fd => fd.filename ≠ [])).foldl
    (fun acc fd => insert fd.filename acc) s.collapsed
  App.recompute_visible_lines { s with collapsed := c } files

/-- Expand all file sections (app.rs `App::unfold_all`). -/
def App.unfold_all (s : App) (files : List FileDiff) : App :=
  App.recompute_visible_lines { s with collapsed := ∅ } files

-- ── app.rs: search ───────────────────────────────────────────────

/-- Enter search mode with a fresh query (app.rs `App::enter_search`). -/
def App.enter_search (s : App) (forward : Bool) : App :=
  { s with input_mode := InputMode.Search,
           search := ⟨[], forward, false, [], 0⟩ }

/-- Append one character to the query (app.rs `App::search_push`). -/
def App.search_push (s : App) (c : Char) : App :=
  { s with search := { s.search with query := s.search.query ++ [c] } }

/-- Drop the last character of the query (app.rs `App::search_pop`). -/
def App.search_pop (s : App) : App :=
  { s with search := { s.search with query := s.search.query.dropLast } }

/-- Index of the first occurrence of `needle` in `hay`
(Rust `str::find` at character granularity). -/
def findSub (needle : Str) : Str → Option Nat
  | [] => if needle.isPrefixOf ([] : Str) then some 0 else none
  | c :: t =>
    if needle.isPrefixOf (c :: t) then some 0
    else (findSub needle t).map (· + 1)

/-- The inner scanning loop of app.rs `App::recompute_matches`: starting at
offset `start`, repeatedly find the needle in the remaining suffix and
record (start, end) spans, resuming just past each match. Fuel bounds the
recursion; `hay.length + 1` steps suffice for every non-empty needle, and
the needle is non-empty whenever this runs (the caller returns early on an
empty query, exactly as the Rust code does). -/
def matchesInLineAux (needle hay : Str) : Nat → Nat → List (Nat × Nat)
  | 0, _ => []
  | fuel + 1, start =>
    match findSub needle (hay.drop start) with
    | none => []
    | some pos =>
      let bs := start + pos
      let be := bs + needle.length
      (bs, be) :: matchesInLineAux needle hay fuel be

/-- All non-overlapping occurrence spans of `needle` in `hay`. -/
def matchesInLine (needle hay : Str) : List (Nat × Nat) :=
  matchesInLineAux needle hay (hay.length + 1) 0

/-- The outer per-line loop of app.rs `App::recompute_matches`: enumerate
the lines starting at index `i`, lowercase each text and collect its match
spans tagged with the line index. -/
def matchesFromIdx (ql : Str) : Nat → List DiffLine → List (Nat × Nat × Nat)
  | _, [] => []
  | i, dl :: rest =>
    ((matchesInLine ql (toLowerStr dl.text)).map (fun p => (i, p.1, p.2)))
      ++ matchesFromIdx ql (i + 1) rest

/-- Recompute all search matches for the given lines, case-insensitively
(app.rs `App::recompute_matches`). -/
def App.recompute_matches (s : App) (lines : List DiffLine) : App :=
  if s.search.query = [] then
    { s with search := { s.search with matchesList := [], active := false } }
  else
    let ql := toLowerStr s.search.query
    let ms := matchesFromIdx ql 0 lines
    { s with search := { s.search with
        matchesList := ms
        active := !ms.isEmpty } }

/-- Scroll so the current match is visible with a 5-line lead-in
(app.rs `App::jump_to_current_match`; `line_idx as u16` truncates and
`saturating_sub` is `Nat` subtraction). -/
def App.jump_to_current_match (s : App) : App :=
  match s.search.matchesList.get? s.search.current_match with
  | some (line_idx, _, _) =>
    { s with scroll := min (line_idx % 65536 - 5) s.max_scroll }
  | none => s

/-- Index of the first match whose line is at or after `line`
(Rust `Iterator::position` inside app.rs `App::first_match_from`). -/
def posFrom (line : Nat) : List (Nat × Nat × Nat) → Option Nat
  | [] => none
  | m :: rest =>
    if line ≤ m.1 then some 0 else (posFrom line rest).map (· + 1)

/-- Index of the last match whose line is at or before `line`
(`Iterator::rposition` inside app.rs `App::last_match_before`). -/
def rposLE (line : Nat) : List (Nat × Nat × Nat) → Option Nat
  | [] => none
  | m :: rest =>
    match rposLE line rest with
    | some p => some (p + 1)
    | none => if m.1 ≤ line then some 0 else none

/-- Position of the first match at or after `line`, defaulting to 0
(app.rs `App::first_match_from`). -/
def first_match_from (ms : List (Nat × Nat × Nat)) (line : Nat) : Nat :=
  (posFrom line ms).getD 0

/-- Position of the last match at or before `line`, defaulting to the last
index (app.rs `App::last_match_before`, with `saturating_sub(1)`). -/
def last_match_before (ms : List (Nat × Nat × Nat)) (line : Nat) : Nat :=
  (rposLE line ms).getD (ms.length - 1)

/-- Confirm the search query and switch back to normal mode
(app.rs `App::search_confirm`). -/
def App.search_confirm (s : App) (lines : List DiffLine) : App :=
  let s1 := App.recompute_matches { s with input_mode := InputMode.Normal } lines
  if s1.search.matchesList.isEmpty then s1
  else
    let cm := if s1.search.forward then
        first_match_from s1.search.matchesList s1.scroll
      else
        last_match_before s1.search.matchesList
          (s1.scroll + s1.viewport_height)
    App.jump_to_current_match
      { s1 with search := { s1.search with active := true, current_match := cm } }

/-- Advance the match cursor circularly and jump (app.rs `App::search_next`). -/
def App.search_next (s : App) : App :=
  if !s.search.active || s.search.matchesList.isEmpty then s
  else
    App.jump_to_current_match
      { s with search := { s.search with
          current_match := (s.search.current_match + 1) % s.search.matchesList.length } }

/-- Move the match cursor backwards circularly and jump
(app.rs `App::search_prev`). -/
def App.search_prev (s : App) : App :=
  if !s.search.active || s.search.matchesList.isEmpty then s
  else
    let len := s.search.matchesList.length
    let cm := if s.search.current_match = 0 then len - 1
              else s.search.current_match - 1
    App.jump_to_current_match
      { s with search := { s.search with current_match := cm } }

-- ── watcher.rs ───────────────────────────────────────────────────

/-- A filesystem path, modelled as its list of components. -/
abbrev FsPath := List Str

/-- Debounced event kinds of the `notify_debouncer_mini` crate: `Any` is the
single coalesced event, `AnyContinuous` an ongoing-change event emitted
while a path keeps changing. -/
inductive DebouncedEventKind where
  | Any
  | AnyContinuous
deriving DecidableEq, Repr

/-- One debounced filesystem event as the watcher callback sees it: its
kind, its absolute path and whether the path is a directory (the
`metadata` probe in `should_notify`, here carried on the event). -/
structure FsEvent where
  kind : DebouncedEventKind
  path : FsPath
  is_dir : Bool

/-- Within `.git/`, only a few paths signal meaningful state changes
(watcher.rs `is_interesting_git_path`): the index file, HEAD, anything
strictly under refs/, and the merge/rebase markers. -/
def is_interesting_git_path (path git_dir : FsPath) : Bool :=
  if git_dir.isPrefixOf path then
    let rel := path.drop git_dir.length
    rel = ["index".toList] || rel = ["HEAD".toList]
      || (rel.headD [] = "refs".toList && rel.length ≥ 2)
      || rel = ["MERGE_HEAD".toList] || rel = ["REBASE_HEAD".toList]
  else false

/-- Decide whether a filesystem event path should trigger a refresh
(watcher.rs `should_notify`). The third-party gitignore matcher is an
opaque parameter `ign` taking the repo-relative path and the
is-directory flag and returning whether the path is ignored. -/
def should_notify (path repo git_dir : FsPath) (ign : FsPath → Bool → Bool)
    (is_dir : Bool) : Bool :=
  if git_dir.isPrefixOf path then is_interesting_git_path path git_dir
  else if repo.isPrefixOf path then !(ign (path.drop repo.length) is_dir)
  else false

/-- The debouncer callback of watcher.rs `spawn`, counting how many
`FsChange` signals one batch of debounced events produces: events whose
kind is not `Any` are skipped, and the first event passing
`should_notify` sends exactly one signal and stops the loop. -/
def batchSignals (repo : FsPath) (ign : FsPath → Bool → Bool) :
    List FsEvent → Nat
  | [] => 0
  | e :: rest =>
    if e.kind = DebouncedEventKind.Any
        ∧ should_notify e.path repo (repo ++ [".git".toList]) ign e.is_dir = true then
      1
    else
      batchSignals repo ign rest

-- ── git.rs / main.rs: snapshot fallback ──────────────────────────

/-- Snapshot of everything the renderer needs from git (git.rs
`RepoState`), with `Instant` capture times modelled as `Nat` and the diff
fields holding the structured per-file sections consumed by
`App::recompute_visible_lines`. -/
structure RepoState where
  branch : Str
  last_commit_hash : Option Str
  last_commit_message : Option Str
  staged_count : Nat
  unstaged_count : Nat
  unstaged_diff : List FileDiff
  staged_diff : List FileDiff
  refreshed_at : Nat
deriving DecidableEq, Repr

/-- Fallback placeholder snapshot (git.rs `RepoState::empty`): unknown
branch, no commit, zero counts, and a single body-only section carrying
the reason text. The section has an empty filename so that
`recompute_visible_lines` emits no synthetic header for it (see the
skip-empty-filename branch in app.rs). -/
def RepoState.empty (reason : Str) (now : Nat) : RepoState :=
  ⟨"(unknown)".toList, none, none, 0, 0,
   [⟨[], 0, 0, [DiffLine.Context reason]⟩], [], now⟩

/-- Result of `RepoState::query`: either a snapshot or an error message. -/
abbrev QueryResult := Except Str RepoState

/-- The initial-load fallback in main.rs `run`:
`RepoState::query(repo).unwrap_or_else(|_| RepoState::empty(...))`. -/
def initial_load (res : QueryResult) (now : Nat) : RepoState :=
  match res with
  | Except.ok s => s
  | Except.error _ =>
    RepoState.empty "Failed to query git state — is this a valid repo?".toList now

/-- The refresh fallback in main.rs `run`:
`state = RepoState::query(repo).unwrap_or(state)`. -/
def refresh_step (res : QueryResult) (prev : RepoState) : RepoState :=
  match res with
  | Except.ok s => s
  | Except.error _ => prev

-- ── derived forms used in the statements and proofs ──────────────

/-- Boolean test for the synthetic `FileHeader` variant. -/
def isFileHeaderB : DiffLine → Bool
  | .FileHeader _ _ _ => true
  | _ => false

/-- Contribution of one file diff to `visible_lines` (closed form of one
iteration of the `recompute_visible_lines` loop): a synthetic header when
the filename is non-empty, followed by the body lines when the file is
not collapsed. -/
def emitFile (c : Finset Str) (fd : FileDiff) : List DiffLine :=
  (if fd.filename ≠ [] then
      [DiffLine.FileHeader fd.filename fd.added fd.removed]
    else [])
    ++ (if fd.filename ∈ c then [] else fd.lines)

/-- Closed form of the `visible_lines` built by the recompute loop. -/
def emitAll (c : Finset Str) : List FileDiff → List DiffLine
  | [] => []
  | fd :: rest => emitFile c fd ++ emitAll c rest

/-- Closed form of the `file_header_positions` built by the recompute
loop, relative to the start of the emitted lines. -/
def emitPos (c : Finset Str) : List FileDiff → List Nat
  | [] => []
  | fd :: rest =>
    (if fd.filename ≠ [] then [0] else [])
      ++ (emitPos c rest).map (· + (emitFile c fd).length)

/-- Indices (counted from `i`) of the elements satisfying `p`. -/
def idxsFrom (p : DiffLine → Bool) (i : Nat) : List DiffLine → List Nat
  | [] => []
  | dl :: rest =>
    if p dl then i :: idxsFrom p (i + 1) rest else idxsFrom p (i + 1) rest

/-- The view-state operations named by the scroll invariant: scrolling by
any amount, half-page and full-page scrolls, jumps to top and bottom,
fold toggles, fold/unfold all, view switches and recomputes. Each carries
the file diffs the main loop would pass in (main.rs `handle_diff_key`). -/
inductive ViewOp where
  | down (n : Nat)
  | up (n : Nat)
  | top
  | bottom
  | halfDown
  | halfUp
  | pageDown
  | pageUp
  | toggleFold (files : List FileDiff)
  | foldAll (files : List FileDiff)
  | unfoldAll (files : List FileDiff)
  | switchView (files : List FileDiff)
  | recompute (files : List FileDiff)

/-- Dispatch of one view-state operation, as main.rs `handle_diff_key`
routes it into app.rs (a view switch is followed by a recompute there;
full-page scrolls pass `viewport_height`). -/
def applyViewOp (s : App) : ViewOp → App
  | ViewOp.down n => s.scroll_down n
  | ViewOp.up n => s.scroll_up n
  | ViewOp.top => s.scroll_to_top
  | ViewOp.bottom => s.scroll_to_bottom
  | ViewOp.halfDown => s.scroll_half_down
  | ViewOp.halfUp => s.scroll_half_up
  | ViewOp.pageDown => s.scroll_down s.viewport_height
  | ViewOp.pageUp => s.scroll_up s.viewport_height
  | ViewOp.toggleFold files => s.toggle_file_fold files
  | ViewOp.foldAll files => s.fold_all files
  | ViewOp.unfoldAll files => s.unfold_all files
  | ViewOp.switchView files => s.toggle_view.recompute_visible_lines files
  | ViewOp.recompute files => s.recompute_visible_lines files

/-- The scroll-clamping invariant maintained by the view-state machine:
the offset is within the clamped range and `diff_line_count` is the
(`u16`-truncated) length of `visible_lines`. -/
def ScrollInv (s : App) : Prop :=
  s.scroll ≤ s.max_scroll
    ∧ s.diff_line_count = s.visible_lines.length % 65536

-- ── theorems ─────────────────────────────────────────────────────

/-- C8: when the version-control query fails, a refresh retains the
previous snapshot unchanged — its capture timestamp included — and the
initial load falls back to the explicit placeholder snapshot; both paths
are total, so no failure propagates. -/
theorem query_failure_fallback :
    (∀ (e : Str) (prev : RepoState),
      refresh_step (Except.error e) prev = prev
        ∧ (refresh_step (Except.error e) prev).refreshed_at = prev.refreshed_at)
    ∧ (∀ (e : Str) (now : Nat),
      initial_load (Except.error e) now
        = RepoState.empty
            "Failed to query git state — is this a valid repo?".toList now) :=
  ⟨fun _ _ => ⟨rfl, rfl⟩, fun _ _ => rfl⟩

/-- C2 (amended): for every debounced batch of raw filesystem events,
exactly one refresh signal is sent when at least one event of the
non-continuous debounced kind (`Any`) passes the path classification of
`should_notify`, and zero signals are sent when no such event does,
regardless of how many raw events the batch contains. (The claim as
stated, which classifies by path alone, fails on continuous-kind events —
see the counterexample.) -/
theorem batchSignals_eq_any (repo : FsPath) (ign : FsPath → Bool → Bool)
    (events : List FsEvent) :
    batchSignals repo ign events =
      if ∃ e ∈ events, e.kind = DebouncedEventKind.Any
          ∧ should_notify e.path repo (repo ++ [".git".toList]) ign e.is_dir = true
      then 1 else 0 := by
  induction events with
  | nil => simp [batchSignals]
  | cons e rest ih =>
    simp only [batchSignals, List.exists_mem_cons_iff, ih]
    by_cases h : e.kind = DebouncedEventKind.Any
        ∧ should_notify e.path repo (repo ++ [".git".toList]) ign e.is_dir = true
    · rw [if_pos h, if_pos (Or.inl h)]
    · rw [if_neg h]
      by_cases h2 : ∃ x ∈ rest, x.kind = DebouncedEventKind.Any
          ∧ should_notify x.path repo (repo ++ [".git".toList]) ign x.is_dir = true
      · rw [if_pos h2, if_pos (Or.inr h2)]
      · rw [if_neg h2, if_neg (fun hor => hor.elim h h2)]

/-- C2 counterexample: a batch consisting of one continuous-kind debounced
event whose path is the allow-listed HEAD metadata file passes the
path classification of the claim (`should_notify` is true), yet the callback
sends zero refresh signals, refuting the claim as stated. -/
theorem watcher_continuous_kind_counterexample :
    should_notify ["r".toList, ".git".toList, "HEAD".toList] ["r".toList]
        (["r".toList] ++ [".git".toList]) (fun _ _ => false) false = true
    ∧ batchSignals ["r".toList] (fun _ _ => false)
        [⟨DebouncedEventKind.AnyContinuous,
          ["r".toList, ".git".toList, "HEAD".toList], false⟩] = 0 := by
  decide

/-- Raw `git diff` text of the C7 scenario (as its list of lines): two
file sections, each with 3 added lines and 1 removed line. -/
def c7Raw : List Str :=
  ["diff --git a/foo.txt b/foo.txt".toList,
   "index 1111111..2222222 100644".toList,
   "--- a/foo.txt".toList,
   "+++ b/foo.txt".toList,
   "@@ -1,2 +1,4 @@".toList,
   " context".toList,
   "-old line".toList,
   "+new one".toList,
   "+new two".toList,
   "+new three".toList,
   "diff --git a/bar.txt b/bar.txt".toList,
   "index 3333333..4444444 100644".toList,
   "--- a/bar.txt".toList,
   "+++ b/bar.txt".toList,
   "@@ -1,2 +1,4 @@".toList,
   " context".toList,
   "-old line".toList,
   "+new A".toList,
   "+new B".toList,
   "+new C".toList]

/-- C7: parsing raw diff text with two file sections of 3 added and 1
removed line each yields exactly 2 `FileDiff` entries, each with
`added = 3` and `removed = 1`, and recomputing visible lines with an
empty collapsed set (the fresh `App.new` state) puts exactly 2 synthetic
`FileHeader` entries into `visible_lines`. -/
theorem parse_two_sections_scenario :
    (parse_files c7Raw).length = 2
    ∧ (∀ fd ∈ parse_files c7Raw, fd.added = 3 ∧ fd.removed = 1)
    ∧ (((App.new 20).recompute_visible_lines (parse_files c7Raw)).visible_lines.countP
        isFileHeaderB) = 2 := by
  decide

/-- Projections of `recompute_visible_lines`: the rebuilt lines. -/
theorem recompute_visible (s : App) (files : List FileDiff) :
    (s.recompute_visible_lines files).visible_lines
      = (buildVisibleAux s.collapsed [] [] files).1 := rfl

/-- `recompute_visible_lines` leaves the collapsed set unchanged. -/
theorem recompute_collapsed (s : App) (files : List FileDiff) :
    (s.recompute_visible_lines files).collapsed = s.collapsed := rfl

/-- Flipping membership of `name` twice restores the collapsed set. -/
theorem toggle_twice (c : Finset Str) (name : Str) :
    (if name ∈ (if name ∈ c then c.erase name else insert name c)
     then (if name ∈ c then c.erase name else insert name c).erase name
     else insert name (if name ∈ c then c.erase name else insert name c))
      = c := by
  by_cases h : name ∈ c
  · simp [h, Finset.not_mem_erase, Finset.insert_erase h]
  · simp [h, Finset.erase_insert h]

/-- C3: toggling the fold state of a file and toggling it again restores
`visible_lines` to the exact sequence it had before the first toggle, for
every state whose `visible_lines` agree with the current snapshot (as the
main loop maintains after every recompute). -/
theorem fold_unfold_roundtrip (s : App) (files : List FileDiff) (name : Str)
    (hsync : s.visible_lines = (s.recompute_visible_lines files).visible_lines) :
    ((s.toggle_fold_of name files).toggle_fold_of name files).visible_lines
      = s.visible_lines := by
  have key : ∀ t : App, (t.toggle_fold_of name files).visible_lines
      = (buildVisibleAux
          (if name ∈ t.collapsed then t.collapsed.erase name
           else insert name t.collapsed) [] [] files).1 := fun _ => rfl
  have kc : (s.toggle_fold_of name files).collapsed
      = (if name ∈ s.collapsed then s.collapsed.erase name
         else insert name s.collapsed) := rfl
  rw [key, kc, toggle_twice, ← recompute_visible, ← hsync]

/-- The file list of the C3 witness. -/
def c3Files : List FileDiff :=
  [⟨"a.txt".toList, 1, 0, [DiffLine.Added "+x".toList]⟩,
   ⟨"b.txt".toList, 0, 1, [DiffLine.Removed "-y".toList]⟩]

/-- The starting state of the C3 witness: a fresh state after one
recompute against `c3Files`. -/
def c3State : App := (App.new 5).recompute_visible_lines c3Files

/-- C3 witness: the round trip at a concrete state, file list and name. -/
theorem fold_unfold_roundtrip_witness :
    ((c3State.toggle_fold_of "a.txt".toList c3Files).toggle_fold_of
        "a.txt".toList c3Files).visible_lines = c3State.visible_lines :=
  fold_unfold_roundtrip c3State c3Files "a.txt".toList (by decide)

/-- `jump_to_current_match` only moves the scroll offset; the search
state is untouched. -/
theorem jump_search_eq (s : App) :
    s.jump_to_current_match.search = s.search := by
  unfold App.jump_to_current_match
  cases h : s.search.matchesList.get? s.search.current_match with
  | none => rfl
  | some val => obtain ⟨li, bs, be⟩ := val; rfl

/-- One `search_next` step with an active search: matches and the active
flag are preserved and the cursor advances by one, modulo the match count. -/
theorem search_next_step (s : App) (ha : s.search.active = true)
    (hne : s.search.matchesList ≠ []) :
    s.search_next.search.matchesList = s.search.matchesList
    ∧ s.search_next.search.active = true
    ∧ s.search_next.search.current_match
        = (s.search.current_match + 1) % s.search.matchesList.length := by
  have hcond : (!s.search.active || s.search.matchesList.isEmpty) = false := by
    simp [ha, hne]
  unfold App.search_next
  rw [hcond]
  simp only [Bool.false_eq_true, if_false, jump_search_eq]
  exact ⟨trivial, ha, trivial⟩

/-- C4: with an active search over N ≥ 1 matches and a cursor on a valid
match index, applying `search_next` N times returns the cursor to its
original match index — the cursor wraps circularly through the matches. -/
theorem search_next_cycles (s : App) (ha : s.search.active = true)
    (hne : s.search.matchesList ≠ [])
    (hcm : s.search.current_match < s.search.matchesList.length) :
    (App.search_next^[s.search.matchesList.length] s).search.current_match
      = s.search.current_match := by
  have main : ∀ k : Nat,
      (App.search_next^[k] s).search.matchesList = s.search.matchesList
      ∧ (App.search_next^[k] s).search.active = true
      ∧ (App.search_next^[k] s).search.current_match
          = (s.search.current_match + k) % s.search.matchesList.length := by
    intro k
    induction k with
    | zero =>
      exact ⟨rfl, ha, by simpa using (Nat.mod_eq_of_lt hcm).symm⟩
    | succ k ih =>
      obtain ⟨hm, hact, hcur⟩ := ih
      rw [Function.iterate_succ_apply']
      obtain ⟨hm', hact', hcur'⟩ :=
        search_next_step (App.search_next^[k] s) hact (hm ▸ hne)
      refine ⟨hm'.trans hm, hact', ?_⟩
      rw [hcur', hcur, hm, Nat.mod_add_mod, Nat.add_assoc]
  obtain ⟨-, -, hcur⟩ := main s.search.matchesList.length
  rw [hcur, Nat.add_mod_right, Nat.mod_eq_of_lt hcm]

/-- C4 witness: a concrete active search with three matches and cursor 1;
three `search_next` steps return the cursor to 1. -/
theorem search_next_cycles_witness :
    ((App.search_next^[(3 : Nat)])
        { App.new 5 with search := ⟨"a".toList, true, true,
            [(0, 0, 1), (2, 0, 1), (4, 0, 1)], 1⟩ }).search.current_match
      = 1 :=
  search_next_cycles
    { App.new 5 with search := ⟨"a".toList, true, true,
        [(0, 0, 1), (2, 0, 1), (4, 0, 1)], 1⟩ }
    (by decide) (by decide) (by decide)

/-- Recomputing visible lines re-establishes the scroll invariant from
any incoming state: the offset is clamped and the line count re-synced. -/
theorem recompute_scrollInv (s : App) (files : List FileDiff) :
    ScrollInv (s.recompute_visible_lines files) := by
  unfold ScrollInv App.recompute_visible_lines App.max_scroll
  refine ⟨?_, rfl⟩
  dsimp only
  split <;> omega

/-- Every view-state operation preserves the scroll invariant. -/
theorem applyViewOp_inv (s : App) (op : ViewOp) (h : ScrollInv s) :
    ScrollInv (applyViewOp s op) := by
  obtain ⟨h1, h2⟩ := h
  cases op with
  | down n => exact ⟨min_le_right _ _, h2⟩
  | up n => exact ⟨le_trans (Nat.sub_le _ _) h1, h2⟩
  | top => exact ⟨Nat.zero_le _, h2⟩
  | bottom => exact ⟨le_refl _, h2⟩
  | halfDown => exact ⟨min_le_right _ _, h2⟩
  | halfUp => exact ⟨le_trans (Nat.sub_le _ _) h1, h2⟩
  | pageDown => exact ⟨min_le_right _ _, h2⟩
  | pageUp => exact ⟨le_trans (Nat.sub_le _ _) h1, h2⟩
  | toggleFold files =>
    show ScrollInv (s.toggle_file_fold files)
    unfold App.toggle_file_fold
    cases s.file_at_scroll with
    | none => exact ⟨h1, h2⟩
    | some name => exact recompute_scrollInv _ _
  | foldAll files => exact recompute_scrollInv _ _
  | unfoldAll files => exact recompute_scrollInv _ _
  | switchView files => exact recompute_scrollInv _ _
  | recompute files => exact recompute_scrollInv _ _

/-- The scroll invariant is preserved along any operation sequence. -/
theorem applyOps_inv (ops : List ViewOp) (s : App) (h : ScrollInv s) :
    ScrollInv (ops.foldl applyViewOp s) := by
  induction ops generalizing s with
  | nil => exact h
  | cons op rest ih => exact ih _ (applyViewOp_inv s op h)

/-- C1: after any sequence of view-state operations (scrolling by any
amount, half- and full-page scrolls, top/bottom jumps, fold and unfold,
view switches, recomputes) starting from a state satisfying the scroll
invariant, the scroll offset satisfies
0 ≤ scroll ≤ max(0, totalLines − viewportHeight), where totalLines is the
current length of `visible_lines` (the `max` with 0 is the truncated
`Nat` subtraction). -/
theorem scroll_within_bounds (s : App) (ops : List ViewOp)
    (h1 : s.scroll ≤ s.max_scroll)
    (h2 : s.diff_line_count = s.visible_lines.length % 65536) :
    0 ≤ (ops.foldl applyViewOp s).scroll
    ∧ (ops.foldl applyViewOp s).scroll
        ≤ (ops.foldl applyViewOp s).visible_lines.length
            - (ops.foldl applyViewOp s).viewport_height := by
  obtain ⟨g1, g2⟩ := applyOps_inv ops s ⟨h1, h2⟩
  refine ⟨Nat.zero_le _, le_trans g1 ?_⟩
  rw [App.max_scroll, g2]
  exact Nat.sub_le_sub_right (Nat.mod_le _ _) _

/-- C1 witness: a concrete mixed operation sequence from the fresh state. -/
theorem scroll_within_bounds_witness :
    0 ≤ (([ViewOp.down 7, ViewOp.recompute c3Files, ViewOp.halfDown,
            ViewOp.toggleFold c3Files, ViewOp.up 1, ViewOp.bottom,
            ViewOp.switchView c3Files].foldl applyViewOp (App.new 3)).scroll)
    ∧ (([ViewOp.down 7, ViewOp.recompute c3Files, ViewOp.halfDown,
            ViewOp.toggleFold c3Files, ViewOp.up 1, ViewOp.bottom,
            ViewOp.switchView c3Files].foldl applyViewOp (App.new 3)).scroll)
        ≤ (([ViewOp.down 7, ViewOp.recompute c3Files, ViewOp.halfDown,
            ViewOp.toggleFold c3Files, ViewOp.up 1, ViewOp.bottom,
            ViewOp.switchView c3Files].foldl applyViewOp (App.new 3)).visible_lines.length)
            - (([ViewOp.down 7, ViewOp.recompute c3Files, ViewOp.halfDown,
            ViewOp.toggleFold c3Files, ViewOp.up 1, ViewOp.bottom,
            ViewOp.switchView c3Files].foldl applyViewOp (App.new 3)).viewport_height) :=
  scroll_within_bounds (App.new 3)
    [ViewOp.down 7, ViewOp.recompute c3Files, ViewOp.halfDown,
     ViewOp.toggleFold c3Files, ViewOp.up 1, ViewOp.bottom,
     ViewOp.switchView c3Files] (by decide) (by decide)

/-- If no line contains the (lowercased) query, the match scan is empty. -/
theorem matchesFromIdx_nil (ql : Str) (lines : List DiffLine)
    (h : ∀ dl ∈ lines, matchesInLine ql (toLowerStr dl.text) = []) :
    ∀ i, matchesFromIdx ql i lines = [] := by
  induction lines with
  | nil => intro i; rfl
  | cons dl rest ih =>
    intro i
    simp only [matchesFromIdx, h dl (List.mem_cons_self _ _), List.map_nil,
      List.nil_append]
    exact ih (fun x hx => h x (List.mem_cons_of_mem _ hx)) (i + 1)

/-- C6: confirming a search whose query occurs in no visible line leaves
the scroll offset unchanged and deactivates the search. -/
theorem search_confirm_no_occurrence (s : App) (lines : List DiffLine)
    (h : ∀ dl ∈ lines,
      matchesInLine (toLowerStr s.search.query) (toLowerStr dl.text) = []) :
    (s.search_confirm lines).scroll = s.scroll
    ∧ (s.search_confirm lines).search.active = false := by
  unfold App.search_confirm App.recompute_matches
  dsimp only
  by_cases hq : s.search.query = []
  · rw [if_pos hq]
    simp
  · rw [if_neg hq, matchesFromIdx_nil _ _ h 0]
    simp

/-- C6 witness: a concrete search for a query absent from the lines. -/
theorem search_confirm_no_occurrence_witness :
    (App.search_confirm
        { App.new 4 with
            scroll := 1
            diff_line_count := 3
            search := ⟨"zq".toList, true, false, [], 0⟩ }
        [DiffLine.Context "alpha".toList, DiffLine.Added "+beta".toList,
         DiffLine.Context "gamma".toList]).scroll
      = ({ App.new 4 with
            scroll := 1
            diff_line_count := 3
            search := ⟨"zq".toList, true, false, [], 0⟩ } : App).scroll
    ∧ (App.search_confirm
        { App.new 4 with
            scroll := 1
            diff_line_count := 3
            search := ⟨"zq".toList, true, false, [], 0⟩ }
        [DiffLine.Context "alpha".toList, DiffLine.Added "+beta".toList,
         DiffLine.Context "gamma".toList]).search.active = false :=
  search_confirm_no_occurrence
    { App.new 4 with
        scroll := 1
        diff_line_count := 3
        search := ⟨"zq".toList, true, false, [], 0⟩ }
    [DiffLine.Context "alpha".toList, DiffLine.Added "+beta".toList,
     DiffLine.Context "gamma".toList]
    (by decide)

/-- Shifting both addends composes on mapped index lists. -/
theorem map_add_right (l : List Nat) (a b : Nat) :
    (l.map (· + b)).map (· + a) = l.map (· + (b + a)) := by
  induction l with
  | nil => rfl
  | cons x t ih => simp only [List.map_cons, ih]; congr 1; omega

/-- Closed form of the recompute loop: the accumulators are extended by
the per-file emissions, with header positions shifted by the incoming
accumulator length. -/
theorem buildVisibleAux_eq (c : Finset Str) (files : List FileDiff) :
    ∀ (acc : List DiffLine) (pos : List Nat),
      buildVisibleAux c acc pos files
        = (acc ++ emitAll c files,
           pos ++ (emitPos c files).map (· + acc.length)) := by
  induction files with
  | nil =>
    intro acc pos
    simp [buildVisibleAux, emitAll, emitPos]
  | cons fd rest ih =>
    intro acc pos
    by_cases hn : fd.filename = []
    · by_cases hc : ([] : Str) ∈ c
      · simp [buildVisibleAux, emitAll, emitPos, emitFile, hn, hc, ih,
          map_add_right, List.map_map, Function.comp, List.append_assoc,
          Nat.add_comm, Nat.add_assoc, Nat.add_left_comm]
      · simp [buildVisibleAux, emitAll, emitPos, emitFile, hn, hc, ih,
          map_add_right, List.map_map, Function.comp, List.append_assoc,
          Nat.add_comm, Nat.add_assoc, Nat.add_left_comm]
    · by_cases hc : fd.filename ∈ c
      · simp [buildVisibleAux, emitAll, emitPos, emitFile, hn, hc, ih,
          map_add_right, List.map_map, Function.comp, List.append_assoc,
          Nat.add_comm, Nat.add_assoc, Nat.add_left_comm]
      · simp [buildVisibleAux, emitAll, emitPos, emitFile, hn, hc, ih,
          map_add_right, List.map_map, Function.comp, List.append_assoc,
          Nat.add_comm, Nat.add_assoc, Nat.add_left_comm]

/-- Every index collected from start `i` is at least `i`. -/
theorem idxsFrom_ge (p : DiffLine → Bool) (l : List DiffLine) :
    ∀ i j, j ∈ idxsFrom p i l → i ≤ j := by
  induction l with
  | nil => intro i j hj; simp [idxsFrom] at hj
  | cons dl rest ih =>
    intro i j hj
    simp only [idxsFrom] at hj
    by_cases hp : p dl
    · rw [if_pos hp] at hj
      rcases List.mem_cons.mp hj with h | h
      · omega
      · have := ih (i + 1) j h; omega
    · rw [if_neg hp] at hj
      have := ih (i + 1) j hj; omega

/-- Collected indices are strictly increasing. -/
theorem idxsFrom_sorted (p : DiffLine → Bool) (l : List DiffLine) :
    ∀ i, List.Pairwise (· < ·) (idxsFrom p i l) := by
  induction l with
  | nil => intro i; simp [idxsFrom]
  | cons dl rest ih =>
    intro i
    simp only [idxsFrom]
    split
    · exact List.Pairwise.cons
        (fun j hj => lt_of_lt_of_le (Nat.lt_succ_self i)
          (idxsFrom_ge p rest (i + 1) j hj))
        (ih (i + 1))
    · exact ih (i + 1)

/-- Index collection distributes over append. -/
theorem idxsFrom_append (p : DiffLine → Bool) (l1 l2 : List DiffLine) :
    ∀ i, idxsFrom p i (l1 ++ l2)
      = idxsFrom p i l1 ++ idxsFrom p (i + l1.length) l2 := by
  induction l1 with
  | nil => intro i; simp [idxsFrom]
  | cons dl rest ih =>
    intro i
    simp only [List.cons_append, idxsFrom, List.length_cons, List.append_eq]
    rw [ih (i + 1)]
    split <;> simp [Nat.add_comm, Nat.add_assoc, Nat.add_left_comm]

/-- Index collection from a shifted start is the shifted collection. -/
theorem idxsFrom_shift (p : DiffLine → Bool) (l : List DiffLine) :
    ∀ i k, idxsFrom p (i + k) l = (idxsFrom p i l).map (· + k) := by
  induction l with
  | nil => intro i k; simp [idxsFrom]
  | cons dl rest ih =>
    intro i k
    simp only [idxsFrom]
    have harg : i + k + 1 = (i + 1) + k := by omega
    split
    · simp only [List.map_cons, harg, ih (i + 1) k]
    · rw [harg, ih (i + 1) k]

/-- No index is collected over lines that all fail the predicate. -/
theorem idxsFrom_none (p : DiffLine → Bool) (l : List DiffLine)
    (h : ∀ dl ∈ l, p dl = false) : ∀ i, idxsFrom p i l = [] := by
  induction l with
  | nil => intro i; rfl
  | cons dl rest ih =>
    intro i
    simp only [idxsFrom, h dl (List.mem_cons_self _ _), Bool.false_eq_true,
      if_false]
    exact ih (fun x hx => h x (List.mem_cons_of_mem _ hx)) (i + 1)

/-- The header indices of one emitted file section: index 0 when the file
has a non-empty filename, none otherwise (given the section body holds no
synthetic headers). -/
theorem idxsFrom_emitFile (c : Finset Str) (fd : FileDiff)
    (h : ∀ dl ∈ fd.lines, isFileHeaderB dl = false) :
    idxsFrom isFileHeaderB 0 (emitFile c fd)
      = if fd.filename ≠ [] then [0] else [] := by
  have hbody : ∀ i, idxsFrom isFileHeaderB i
      (if fd.filename ∈ c then [] else fd.lines) = [] := by
    intro i
    by_cases hc : fd.filename ∈ c
    · simp [hc, idxsFrom]
    · simp only [hc, if_false, ite_false]
      exact idxsFrom_none _ _ h i
  unfold emitFile
  by_cases hn : fd.filename = []
  · simp only [hn, ne_eq, not_true_eq_false, if_false, ite_false,
      List.nil_append]
    simpa [hn] using hbody 0
  · simp only [hn, ne_eq, not_false_eq_true, if_true, ite_true]
    rw [idxsFrom_append]
    simp [idxsFrom, isFileHeaderB, hbody]

/-- The emitted header positions are exactly the indices of the
`FileHeader` entries of the emitted lines. -/
theorem emitPos_eq_idxs (c : Finset Str) (files : List FileDiff)
    (h : ∀ fd ∈ files, ∀ dl ∈ fd.lines, isFileHeaderB dl = false) :
    idxsFrom isFileHeaderB 0 (emitAll c files) = emitPos c files := by
  induction files with
  | nil => rfl
  | cons fd rest ih =>
    simp only [emitAll, emitPos]
    rw [idxsFrom_append, idxsFrom_emitFile c fd
      (h fd (List.mem_cons_self _ _))]
    have hshift : idxsFrom isFileHeaderB (0 + (emitFile c fd).length)
        (emitAll c rest)
        = (idxsFrom isFileHeaderB 0 (emitAll c rest)).map
            (· + (emitFile c fd).length) :=
      idxsFrom_shift _ _ 0 (emitFile c fd).length
    rw [hshift, ih (fun x hx y hy => h x (List.mem_cons_of_mem _ hx) y hy)]

/-- One header position per file with a non-empty filename. -/
theorem emitPos_length (c : Finset Str) (files : List FileDiff) :
    (emitPos c files).length
      = (files.filter (fun fd => fd.filename ≠ [])).length := by
  induction files with
  | nil => rfl
  | cons fd rest ih =>
    by_cases hn : fd.filename = [] <;>
      simp [emitPos, List.filter, hn, ih]

/-- Body lines of every non-collapsed file appear in the emitted lines. -/
theorem emitAll_mem_body (c : Finset Str) (files : List FileDiff) :
    ∀ fd ∈ files, fd.filename ∉ c → ∀ dl ∈ fd.lines, dl ∈ emitAll c files := by
  induction files with
  | nil => intro fd hfd; simp at hfd
  | cons g rest ih =>
    intro fd hfd hnc dl hdl
    rcases List.mem_cons.mp hfd with h1 | h1
    · subst h1
      refine List.mem_append_left _ ?_
      unfold emitFile
      exact List.mem_append_right _ (by simp [hnc, hdl])
    · exact List.mem_append_right _ (ih fd h1 hnc dl hdl)

/-- What C10 asserts of one recompute: the visible lines are exactly the
per-file emissions (so a file with an empty filename contributes no
synthetic header, only its body when not collapsed), the header positions
are exactly the indices of the `FileHeader` entries of `visible_lines`,
they are strictly increasing, they number one per non-empty filename, and
the body lines of every non-collapsed file are present. -/
def headerPositionsSpec (s : App) (files : List FileDiff) : Prop :=
  (s.recompute_visible_lines files).visible_lines = emitAll s.collapsed files
  ∧ (s.recompute_visible_lines files).file_header_positions
      = idxsFrom isFileHeaderB 0 ((s.recompute_visible_lines files).visible_lines)
  ∧ List.Pairwise (· < ·) ((s.recompute_visible_lines files).file_header_positions)
  ∧ ((s.recompute_visible_lines files).file_header_positions).length
      = (files.filter (fun fd => fd.filename ≠ [])).length
  ∧ (∀ fd ∈ files, fd.filename ∉ s.collapsed →
      ∀ dl ∈ fd.lines, dl ∈ (s.recompute_visible_lines files).visible_lines)

/-- C10: for file diffs whose bodies contain no synthetic headers (as all
parsed diffs and the error placeholder do), recomputing visible lines
emits no header and no header position for an empty filename while still
appending its body when not collapsed, and `file_header_positions`
indexes exactly the `FileHeader` entries of `visible_lines` in strictly
increasing order. -/
theorem recompute_header_positions (s : App) (files : List FileDiff)
    (h : ∀ fd ∈ files, ∀ dl ∈ fd.lines, isFileHeaderB dl = false) :
    headerPositionsSpec s files := by
  have hb := buildVisibleAux_eq s.collapsed files [] []
  have hvl : (s.recompute_visible_lines files).visible_lines
      = emitAll s.collapsed files := by
    have hp : (s.recompute_visible_lines files).visible_lines
        = (buildVisibleAux s.collapsed [] [] files).1 := rfl
    rw [hp, hb]
    simp
  have hfhp : (s.recompute_visible_lines files).file_header_positions
      = emitPos s.collapsed files := by
    have hp : (s.recompute_visible_lines files).file_header_positions
        = (buildVisibleAux s.collapsed [] [] files).2 := rfl
    rw [hp, hb]
    simp
  refine ⟨hvl, ?_, ?_, ?_, ?_⟩
  · rw [hvl, hfhp, emitPos_eq_idxs s.collapsed files h]
  · rw [hfhp, ← emitPos_eq_idxs s.collapsed files h]
    exact idxsFrom_sorted _ _ 0
  · rw [hfhp, emitPos_length]
  · intro fd hfd hnc dl hdl
    rw [hvl]
    exact emitAll_mem_body s.collapsed files fd hfd hnc dl hdl

/-- The file list of the C10 witness: the placeholder section with an
empty filename followed by an ordinary section. -/
def c10Files : List FileDiff :=
  [⟨[], 0, 0, [DiffLine.Context "query failed".toList]⟩,
   ⟨"a.txt".toList, 1, 0, [DiffLine.Added "+x".toList]⟩]

/-- C10 witness: the specification at a concrete state and file list
containing an empty-filename placeholder section. -/
theorem recompute_header_positions_witness :
    headerPositionsSpec (App.new 2) c10Files :=
  recompute_header_positions (App.new 2) c10Files (by decide)

/-- Every match collected from line index `i` onwards has line index at
least `i`. -/
theorem matchesFromIdx_fst_ge (ql : Str) (lines : List DiffLine) :
    ∀ i x, x ∈ matchesFromIdx ql i lines → i ≤ x.1 := by
  induction lines with
  | nil => intro i x hx; simp [matchesFromIdx] at hx
  | cons dl rest ih =>
    intro i x hx
    simp only [matchesFromIdx, List.mem_append] at hx
    rcases hx with h | h
    · obtain ⟨p, hp, rfl⟩ := List.mem_map.mp h
      exact le_refl i
    · have := ih (i + 1) x h; omega

/-- The collected matches are in line order: line indices never decrease
along the list. -/
theorem matchesFromIdx_pairwise (ql : Str) (lines : List DiffLine) :
    ∀ i, List.Pairwise (fun a b : Nat × Nat × Nat => a.1 ≤ b.1)
      (matchesFromIdx ql i lines) := by
  induction lines with
  | nil => intro i; simp [matchesFromIdx]
  | cons dl rest ih =>
    intro i
    simp only [matchesFromIdx]
    apply List.pairwise_append.mpr
    refine ⟨?_, ih (i + 1), ?_⟩
    · have hmap : ∀ l' : List (Nat × Nat),
          List.Pairwise (fun a b : Nat × Nat × Nat => a.1 ≤ b.1)
            (l'.map (fun p => (i, p.1, p.2))) := by
        intro l'
        induction l' with
        | nil => simp
        | cons a t iht =>
          simp only [List.map_cons]
          refine List.Pairwise.cons ?_ iht
          intro b hb
          obtain ⟨p, hp, rfl⟩ := List.mem_map.mp hb
          exact le_refl i
      exact hmap _
    · intro a ha b hb
      obtain ⟨p, hp, rfl⟩ := List.mem_map.mp ha
      have := matchesFromIdx_fst_ge ql rest (i + 1) b hb
      simp only
      omega

/-- When `posFrom` finds an index, that index holds the first match at or
after the given line: everything earlier is strictly before it. -/
theorem posFrom_some (line : Nat) (M : List (Nat × Nat × Nat)) :
    ∀ i, posFrom line M = some i →
      (∃ m, M.get? i = some m ∧ line ≤ m.1)
      ∧ ∀ j m', j < i → M.get? j = some m' → m'.1 < line := by
  induction M with
  | nil => intro i hi; simp [posFrom] at hi
  | cons m rest ih =>
    intro i hi
    simp only [posFrom] at hi
    by_cases hle : line ≤ m.1
    · rw [if_pos hle] at hi
      injection hi with h0
      subst h0
      refine ⟨⟨m, rfl, hle⟩, ?_⟩
      intro j m' hj
      exact absurd hj (Nat.not_lt_zero j)
    · rw [if_neg hle] at hi
      obtain ⟨i', hi', hEq⟩ := Option.map_eq_some'.mp hi
      subst hEq
      obtain ⟨⟨m0, hm0, hm0le⟩, hprev⟩ := ih i' hi'
      refine ⟨⟨m0, by simpa using hm0, hm0le⟩, ?_⟩
      intro j m' hj hget
      cases j with
      | zero =>
        simp only [List.get?_cons_zero, Option.some.injEq] at hget
        subst hget
        omega
      | succ j' =>
        exact hprev j' m' (by omega) (by simpa using hget)

/-- `posFrom` finds an index whenever some match lies at or after the
given line. -/
theorem posFrom_isSome (line : Nat) (M : List (Nat × Nat × Nat))
    (h : ∃ m ∈ M, line ≤ m.1) : ∃ i, posFrom line M = some i := by
  induction M with
  | nil => simp at h
  | cons m rest ih =>
    by_cases hle : line ≤ m.1
    · exact ⟨0, by simp [posFrom, hle]⟩
    · obtain ⟨m0, hm0, hle0⟩ := h
      rcases List.mem_cons.mp hm0 with rfl | hm0r
      · exact absurd hle0 hle
      · obtain ⟨i', hi'⟩ := ih ⟨m0, hm0r, hle0⟩
        exact ⟨i' + 1, by simp [posFrom, hle, hi']⟩

/-- When `rposLE` finds nothing, every match lies strictly after the
given line. -/
theorem rposLE_none (line : Nat) (M : List (Nat × Nat × Nat))
    (h : rposLE line M = none) : ∀ m ∈ M, line < m.1 := by
  induction M with
  | nil => intro m hm; simp at hm
  | cons m rest ih =>
    intro x hx
    simp only [rposLE] at h
    cases hr : rposLE line rest with
    | some p => rw [hr] at h; exact absurd h (by simp)
    | none =>
      rw [hr] at h
      by_cases hle : m.1 ≤ line
      · rw [if_pos hle] at h; exact absurd h (by simp)
      · rw [if_neg hle] at h
        rcases List.mem_cons.mp hx with rfl | hxr
        · omega
        · exact ih hr x hxr

/-- When `rposLE` finds an index, that index holds the last match at or
before the given line: everything later is strictly after it. -/
theorem rposLE_some (line : Nat) (M : List (Nat × Nat × Nat)) :
    ∀ i, rposLE line M = some i →
      (∃ m, M.get? i = some m ∧ m.1 ≤ line)
      ∧ ∀ j m', i < j → M.get? j = some m' → line < m'.1 := by
  induction M with
  | nil => intro i hi; simp [rposLE] at hi
  | cons m rest ih =>
    intro i hi
    simp only [rposLE] at hi
    cases hr : rposLE line rest with
    | some p =>
      rw [hr] at hi
      injection hi with h0
      subst h0
      obtain ⟨⟨m0, hm0, hm0le⟩, hafter⟩ := ih p hr
      refine ⟨⟨m0, by simpa using hm0, hm0le⟩, ?_⟩
      intro j m' hj hget
      cases j with
      | zero => omega
      | succ j' => exact hafter j' m' (by omega) (by simpa using hget)
    | none =>
      rw [hr] at hi
      by_cases hle : m.1 ≤ line
      · rw [if_pos hle] at hi
        injection hi with h0
        subst h0
        refine ⟨⟨m, rfl, hle⟩, ?_⟩
        intro j m' hj hget
        cases j with
        | zero => omega
        | succ j' =>
          have hmem : m' ∈ rest := List.get?_mem (by simpa using hget)
          exact rposLE_none line rest hr m' hmem
      · rw [if_neg hle] at hi
        exact absurd hi (by simp)

/-- `rposLE` finds an index whenever some match lies at or before the
given line. -/
theorem rposLE_isSome (line : Nat) (M : List (Nat × Nat × Nat))
    (h : ∃ m ∈ M, m.1 ≤ line) : ∃ i, rposLE line M = some i := by
  induction M with
  | nil => simp at h
  | cons m rest ih =>
    simp only [rposLE]
    cases hr : rposLE line rest with
    | some p => exact ⟨p + 1, rfl⟩
    | none =>
      obtain ⟨m0, hm0, hle0⟩ := h
      rcases List.mem_cons.mp hm0 with rfl | hm0r
      · exact ⟨0, by rw [if_pos hle0]⟩
      · obtain ⟨i', hi'⟩ := ih ⟨m0, hm0r, hle0⟩
        rw [hr] at hi'
        exact absurd hi' (by simp)

/-- When the cursor points at a real match, the jump sets the scroll to
the match line (u16-truncated) minus the 5-line lead-in, clamped. -/
theorem jump_scroll_of_get (t : App) (m : Nat × Nat × Nat)
    (hm : t.search.matchesList.get? t.search.current_match = some m) :
    t.jump_to_current_match.scroll = min (m.1 % 65536 - 5) t.max_scroll := by
  obtain ⟨li, bs, be⟩ := m
  unfold App.jump_to_current_match
  rw [hm]

/-- Closed form of `search_confirm` on a non-empty query with at least
one match: matches recomputed, mode back to normal, search activated,
cursor selected by direction, then the jump. -/
theorem search_confirm_eq (s : App) (lines : List DiffLine)
    (hq : s.search.query ≠ [])
    (hne : matchesFromIdx (toLowerStr s.search.query) 0 lines ≠ []) :
    s.search_confirm lines
      = App.jump_to_current_match
          { s with
              input_mode := InputMode.Normal
              search := { s.search with
                matchesList := matchesFromIdx (toLowerStr s.search.query) 0 lines
                active := true
                current_match :=
                  if s.search.forward then
                    first_match_from
                      (matchesFromIdx (toLowerStr s.search.query) 0 lines) s.scroll
                  else
                    last_match_before
                      (matchesFromIdx (toLowerStr s.search.query) 0 lines)
                      (s.scroll + s.viewport_height) } } := by
  have hemp : (matchesFromIdx (toLowerStr s.search.query) 0 lines).isEmpty
      = false := by
    simp [hne]
  have hq' : ({ s with input_mode := InputMode.Normal } : App).search.query
      ≠ [] := hq
  unfold App.search_confirm App.recompute_matches
  rw [if_neg hq']
  dsimp only
  rw [hemp]
  simp only [Bool.false_eq_true, if_false]

/-- What C5 asserts of one confirmed search: the recorded matches are the
line-ordered scan of the visible lines, the search becomes active, the
cursor selects the nearest match at or after the scroll position
(forward) or the nearest at or before the bottom of the viewport
(backward), and the scroll lands on that match line minus the 5-line
lead-in, clamped to the valid range. -/
def confirmSpec (s : App) (lines : List DiffLine) : Prop :=
  (s.search_confirm lines).search.matchesList
      = matchesFromIdx (toLowerStr s.search.query) 0 lines
  ∧ List.Pairwise (fun a b : Nat × Nat × Nat => a.1 ≤ b.1)
      (matchesFromIdx (toLowerStr s.search.query) 0 lines)
  ∧ (s.search_confirm lines).search.active = true
  ∧ (s.search.forward = true →
      ∃ m, (matchesFromIdx (toLowerStr s.search.query) 0 lines).get?
              ((s.search_confirm lines).search.current_match) = some m
        ∧ s.scroll ≤ m.1
        ∧ (∀ j m', j < (s.search_confirm lines).search.current_match →
            (matchesFromIdx (toLowerStr s.search.query) 0 lines).get? j
              = some m' → m'.1 < s.scroll)
        ∧ (s.search_confirm lines).scroll
            = min (m.1 % 65536 - 5) s.max_scroll)
  ∧ (s.search.forward = false →
      ∃ m, (matchesFromIdx (toLowerStr s.search.query) 0 lines).get?
              ((s.search_confirm lines).search.current_match) = some m
        ∧ m.1 ≤ s.scroll + s.viewport_height
        ∧ (∀ j m', (s.search_confirm lines).search.current_match < j →
            (matchesFromIdx (toLowerStr s.search.query) 0 lines).get? j
              = some m' → s.scroll + s.viewport_height < m'.1)
        ∧ (s.search_confirm lines).scroll
            = min (m.1 % 65536 - 5) s.max_scroll)

/-- C5: confirming a search with a non-empty query, when a match exists in
the selected direction (at or after the scroll position when forward, at
or before the bottom of the viewport when backward), records the matches
in line order, activates the search, selects the nearest such match and
scrolls to it with the fixed 5-line lead-in, clamped to the valid range. -/
theorem search_confirm_selects_nearest (s : App) (lines : List DiffLine)
    (hq : s.search.query ≠ [])
    (hf : s.search.forward = true →
      ∃ m ∈ matchesFromIdx (toLowerStr s.search.query) 0 lines,
        s.scroll ≤ m.1)
    (hb : s.search.forward = false →
      ∃ m ∈ matchesFromIdx (toLowerStr s.search.query) 0 lines,
        m.1 ≤ s.scroll + s.viewport_height) :
    confirmSpec s lines := by
  have hne : matchesFromIdx (toLowerStr s.search.query) 0 lines ≠ [] := by
    cases hfw : s.search.forward
    · obtain ⟨m, hm, -⟩ := hb hfw; exact List.ne_nil_of_mem hm
    · obtain ⟨m, hm, -⟩ := hf hfw; exact List.ne_nil_of_mem hm
  have hconf := search_confirm_eq s lines hq hne
  have hsearch : (s.search_confirm lines).search
      = { s.search with
            matchesList := matchesFromIdx (toLowerStr s.search.query) 0 lines
            active := true
            current_match :=
              if s.search.forward then
                first_match_from
                  (matchesFromIdx (toLowerStr s.search.query) 0 lines) s.scroll
              else
                last_match_before
                  (matchesFromIdx (toLowerStr s.search.query) 0 lines)
                  (s.scroll + s.viewport_height) } := by
    rw [hconf, jump_search_eq]
  refine ⟨by rw [hsearch], matchesFromIdx_pairwise _ _ 0, by rw [hsearch], ?_, ?_⟩
  · intro hfw
    obtain ⟨i, hpi⟩ :=
      posFrom_isSome s.scroll (matchesFromIdx (toLowerStr s.search.query) 0 lines) (hf hfw)
    obtain ⟨⟨m, hmi, hmle⟩, hprev⟩ :=
      posFrom_some s.scroll (matchesFromIdx (toLowerStr s.search.query) 0 lines) i hpi
    have hcm : (s.search_confirm lines).search.current_match = i := by
      rw [hsearch]
      dsimp only
      rw [hfw]
      simp only [if_true]
      unfold first_match_from
      rw [hpi]
      rfl
    refine ⟨m, by rw [hcm]; exact hmi, hmle, ?_, ?_⟩
    · intro j m' hj hget
      rw [hcm] at hj
      exact hprev j m' hj hget
    · rw [hconf]
      have hg : ({ s with
          input_mode := InputMode.Normal
          search := { s.search with
            matchesList := matchesFromIdx (toLowerStr s.search.query) 0 lines
            active := true
            current_match :=
              if s.search.forward then
                first_match_from
                  (matchesFromIdx (toLowerStr s.search.query) 0 lines) s.scroll
              else
                last_match_before
                  (matchesFromIdx (toLowerStr s.search.query) 0 lines)
                  (s.scroll + s.viewport_height) } } : App).search.matchesList.get?
          ({ s with
          input_mode := InputMode.Normal
          search := { s.search with
            matchesList := matchesFromIdx (toLowerStr s.search.query) 0 lines
            active := true
            current_match :=
              if s.search.forward then
                first_match_from
                  (matchesFromIdx (toLowerStr s.search.query) 0 lines) s.scroll
              else
                last_match_before
                  (matchesFromIdx (toLowerStr s.search.query) 0 lines)
                  (s.scroll + s.viewport_height) } } : App).search.current_match
          = some m := by
        dsimp only
        rw [hfw]
        simp only [if_true]
        unfold first_match_from
        rw [hpi]
        exact hmi
      rw [jump_scroll_of_get _ m hg]
      rfl
  · intro hfw
    obtain ⟨i, hpi⟩ :=
      rposLE_isSome (s.scroll + s.viewport_height)
        (matchesFromIdx (toLowerStr s.search.query) 0 lines) (hb hfw)
    obtain ⟨⟨m, hmi, hmle⟩, hafter⟩ :=
      rposLE_some (s.scroll + s.viewport_height)
        (matchesFromIdx (toLowerStr s.search.query) 0 lines) i hpi
    have hcm : (s.search_confirm lines).search.current_match = i := by
      rw [hsearch]
      dsimp only
      rw [hfw]
      simp only [Bool.false_eq_true, if_false]
      unfold last_match_before
      rw [hpi]
      rfl
    refine ⟨m, by rw [hcm]; exact hmi, hmle, ?_, ?_⟩
    · intro j m' hj hget
      rw [hcm] at hj
      exact hafter j m' hj hget
    · rw [hconf]
      have hg : ({ s with
          input_mode := InputMode.Normal
          search := { s.search with
            matchesList := matchesFromIdx (toLowerStr s.search.query) 0 lines
            active := true
            current_match :=
              if s.search.forward then
                first_match_from
                  (matchesFromIdx (toLowerStr s.search.query) 0 lines) s.scroll
              else
                last_match_before
                  (matchesFromIdx (toLowerStr s.search.query) 0 lines)
                  (s.scroll + s.viewport_height) } } : App).search.matchesList.get?
          ({ s with
          input_mode := InputMode.Normal
          search := { s.search with
            matchesList := matchesFromIdx (toLowerStr s.search.query) 0 lines
            active := true
            current_match :=
              if s.search.forward then
                first_match_from
                  (matchesFromIdx (toLowerStr s.search.query) 0 lines) s.scroll
              else
                last_match_before
                  (matchesFromIdx (toLowerStr s.search.query) 0 lines)
                  (s.scroll + s.viewport_height) } } : App).search.current_match
          = some m := by
        dsimp only
        rw [hfw]
        simp only [Bool.false_eq_true, if_false]
        unfold last_match_before
        rw [hpi]
        exact hmi
      rw [jump_scroll_of_get _ m hg]
      rfl

/-- The starting state of the C5 witness: a forward search for "ab" from
scroll position 2. -/
def c5State : App :=
  { App.new 10 with
      scroll := 2
      diff_line_count := 8
      search := ⟨"ab".toList, true, false, [], 0⟩ }

/-- The visible lines of the C5 witness, with case-insensitive matches on
lines 0, 3 and 4. -/
def c5Lines : List DiffLine :=
  [DiffLine.Context "xAb".toList,
   DiffLine.Context "qq".toList,
   DiffLine.Context "zz".toList,
   DiffLine.Header "see ab here".toList,
   DiffLine.Context "ab".toList]

/-- C5 witness: the confirm specification at the concrete forward search. -/
theorem search_confirm_selects_nearest_witness : confirmSpec c5State c5Lines :=
  search_confirm_selects_nearest c5State c5Lines (by decide) (by decide)
    (by decide)
